import Mathlib

set_option maxHeartbeats 1000000

namespace ARPNodeRegistry

/-- Classification tag of a node type. The source treats `NodeKind` as an
opaque enumeration compared for equality only; two representative
constructors suffice for the model. -/
inductive NodeKind where
  | atomic
  | composite
deriving DecidableEq

/-- A published node type record. The registry inspects `node_type_id`,
`version` and `kind`; all remaining fields of the external model are opaque
to this core (spec section 3) and are collapsed into `payload`. -/
structure NodeType where
  node_type_id : String
  version : String
  kind : NodeKind
  payload : String
deriving DecidableEq

/-- Health status enumeration (external model); the registry only ever
produces `ok`. -/
inductive Status where
  | ok
  | degraded
deriving DecidableEq

/-- Result of the health operation: a status and the current timestamp. -/
structure Health where
  status : Status
  time : Nat
deriving DecidableEq

/-- Result of the version operation. -/
structure VersionInfo where
  service_name : String
  service_version : String
  supported_api_versions : List String
deriving DecidableEq

/-- Structured error raised by the registry (`ArpServerError` in the
source): machine-readable code, human-readable message and transport
status hint. -/
structure ArpServerError where
  code : String
  message : String
  status_code : Nat
deriving DecidableEq

/-- Registry state. `store` embeds the Python dict `self._store` keyed by
`(node_type_id, version)` as an insertion-ordered association list (the
source only ever inserts a key after checking it is absent, so first-match
lookup agrees with dict lookup), and `versions` embeds the
`defaultdict(list)` `self._versions`. `service_name` / `service_version`
are the constructor arguments of `NodeRegistry.__init__`. -/
structure RegistryState where
  service_name : String
  service_version : String
  store : List ((String × String) × NodeType)
  versions : List (String × List String)
deriving DecidableEq

/-- `NodeRegistry.__init__`: empty store and empty version index. -/
def initState (service_name service_version : String) : RegistryState :=
  { service_name := service_name, service_version := service_version,
    store := [], versions := [] }

/-- One identifier of a dot-separated prerelease, tagged as in
`_semver_key`: `(0, int(part))` for parts satisfying `part.isdigit()`
(numeric, sorts below every non-numeric part) becomes `num`, `(1, part)`
becomes `str` (compared as a code-point string). -/
inductive PreId where
  | num (n : Nat)
  | str (s : List Char)
deriving DecidableEq

/-- The sort key returned by `_semver_key`: the Python tuple
`(major, minor, patch, flag, pre)` where `flag = 1` for a release (empty
prerelease tuple) and `flag = 0` for a prerelease. -/
structure SemverKey where
  major : Nat
  minor : Nat
  patch : Nat
  releaseFlag : Nat
  pre : List PreId
deriving DecidableEq

/-- Numeric value of a list of ASCII digits, as Python `int` reads it
(leading zeros permitted). -/
def digitsToNat (ds : List Char) : Nat :=
  ds.foldl (fun n c => 10 * n + (c.toNat - 48)) 0

/-- One numeric group of the regex, `(0|[1-9]\d*)`: the literal `0`, or a
nonzero digit followed greedily by digits. Returns the value and the rest
of the input. (Digits and the following mandatory dot are disjoint, so the
greedy match never backtracks.) -/
def parseNumGroup : List Char → Option (Nat × List Char)
  | [] => none
  | c :: rest =>
    if c = '0' then some (0, rest)
    else if '1' ≤ c ∧ c ≤ '9' then
      some (digitsToNat (c :: rest.takeWhile Char.isDigit), rest.dropWhile Char.isDigit)
    else none

/-- Consume one expected literal character. -/
def expectChar (c : Char) : List Char → Option (List Char)
  | [] => none
  | d :: rest => if d = c then some rest else none

/-- The character class `[0-9A-Za-z.-]` of the prerelease and build groups. -/
def identChar (c : Char) : Bool :=
  c.isDigit || c.isAlpha || c = '.' || c = '-'

/-- The regex anchor `$` under Python `re` semantics: it matches at the end
of the string, or immediately before a newline that ends the string. -/
def matchEnd : List Char → Bool
  | [] => true
  | [c] => c = '\n'
  | _ => false

/-- Python `str.split` on a literal dot: `"a..b"` gives `["a", "", "b"]`. -/
def splitDots : List Char → List (List Char)
  | [] => [[]]
  | c :: rest =>
    if c = '.' then [] :: splitDots rest
    else
      match splitDots rest with
      | p :: ps => (c :: p) :: ps
      | [] => [[c]]

/-- Tag one prerelease identifier as `_semver_key` does: the parts drawn
from the regex class contain only ASCII `[0-9A-Za-z-]`, on which Python
`part.isdigit()` means nonempty and all ASCII digits. -/
def preIdOfPart (part : List Char) : PreId :=
  if part ≠ [] ∧ part.all Char.isDigit then .num (digitsToNat part) else .str part

/-- The optional build-metadata group `(?:\+[0-9A-Za-z.-]+)?`: a `+` must be
followed by at least one class character, consumed greedily; with no `+`
the group matches empty. -/
def chewBuild : List Char → Option (List Char)
  | '+' :: rest =>
    if rest.takeWhile identChar = [] then none
    else some (rest.dropWhile identChar)
  | cs => some cs

/-- The body of `_SEMVER_RE` after the optional leading `v`, combined with
the key construction of `_semver_key`. The prerelease class excludes `+`
and the build class excludes everything that follows a complete match, so
the greedy matches of the Python regex are deterministic and a shorter
backtracked match can never succeed where the greedy one fails. -/
def semverKeyAux (cs : List Char) : Option SemverKey := do
  let (major, cs) ← parseNumGroup cs
  let cs ← expectChar '.' cs
  let (minor, cs) ← parseNumGroup cs
  let cs ← expectChar '.' cs
  let (patch, cs) ← parseNumGroup cs
  match cs with
  | '-' :: rest =>
    let pre := rest.takeWhile identChar
    if pre = [] then none
    else do
      let rest ← chewBuild (rest.dropWhile identChar)
      if matchEnd rest then
        some { major := major, minor := minor, patch := patch,
               releaseFlag := 0, pre := (splitDots pre).map preIdOfPart }
      else none
  | _ => do
    let rest ← chewBuild cs
    if matchEnd rest then
      some { major := major, minor := minor, patch := patch,
             releaseFlag := 1, pre := [] }
    else none

/-- `_semver_key`: parse `version` against `_SEMVER_RE` (an optional
leading `v`, then `MAJOR.MINOR.PATCH` with no leading zeros, an optional
`-PRERELEASE` and an optional `+BUILD`, anchored) and build the sort key;
`none` when the regex does not match. A leading `v` can be consumed
unconditionally: a digit never begins with `v`, so the empty alternative
of `v?` succeeds only where consuming also would. -/
def semver_key (version : String) : Option SemverKey :=
  semverKeyAux (match version.data with
    | 'v' :: rest => rest
    | cs => cs)

/-- Three-way comparison on naturals, the Python `int` comparison. -/
def cmpNat (a b : Nat) : Ordering :=
  if a < b then .lt else if a = b then .eq else .gt

/-- Three-way comparison on characters: Python compares strings by code
points. -/
def cmpChar (a b : Char) : Ordering :=
  cmpNat a.toNat b.toNat

/-- Lexicographic comparison of two lists given a comparison on elements:
exactly Python tuple (and string) comparison, where a proper prefix sorts
strictly below the longer sequence. -/
def cmpLexList (cmp : α → α → Ordering) : List α → List α → Ordering
  | [], [] => .eq
  | [], _ :: _ => .lt
  | _ :: _, [] => .gt
  | a :: as, b :: bs => (cmp a b).then (cmpLexList cmp as bs)

/-- Comparison of tagged prerelease identifiers, i.e. of the Python pairs
`(0, int)` / `(1, str)`: numeric sorts below non-numeric, numerics compare
as integers, non-numerics as code-point strings. -/
def cmpPreId : PreId → PreId → Ordering
  | .num a, .num b => cmpNat a b
  | .num _, .str _ => .lt
  | .str _, .num _ => .gt
  | .str a, .str b => cmpLexList cmpChar a b

/-- The flattening of the Python 5-tuple key into one list: the first four
components are always present in both operands, so comparing the flattened
lists lexicographically is exactly Python tuple comparison of the keys. -/
def keyList (k : SemverKey) : List PreId :=
  .num k.major :: .num k.minor :: .num k.patch :: .num k.releaseFlag :: k.pre

/-- Python comparison of two `_semver_key` results. -/
def cmpKey (x y : SemverKey) : Ordering :=
  cmpLexList cmpPreId (keyList x) (keyList y)

/-- Python comparison of two strings: code-point lexicographic. -/
def cmpStr (a b : String) : Ordering :=
  cmpLexList cmpChar a.data b.data

/-- Python `a <= b` on strings. -/
def strLeB (a b : String) : Bool :=
  cmpStr a b ≠ .gt

/-- Python comparison of two string pairs, flattened to a two-element list
exactly as `keyList` flattens the semver key: both components are always
present, so lexicographic list comparison is Python tuple comparison. -/
def cmpPairStr (p q : String × String) : Ordering :=
  cmpLexList cmpStr [p.1, p.2] [q.1, q.2]

/-- The sort key `(nt.node_type_id, nt.version)` of `list_node_types`. -/
def ntSortKey (nt : NodeType) : String × String :=
  (nt.node_type_id, nt.version)

/-- Python `<=` on the sort key `(nt.node_type_id, nt.version)` used by
`list_node_types`: tuple comparison of the two strings. -/
def ntLeB (x y : NodeType) : Bool :=
  cmpPairStr (ntSortKey x) (ntSortKey y) ≠ .gt

/-- Insert an element into a sorted list, before the first element it is
`le`-below-or-equal to (the stable insertion step of insertion sort). -/
def insertLe (le : α → α → Bool) (a : α) : List α → List α
  | [] => [a]
  | b :: l => if le a b then a :: b :: l else b :: insertLe le a l

/-- Stable insertion sort; models Python `sorted` / `list.sort`, whose
output agrees with any stable comparison sort. -/
def sortLe (le : α → α → Bool) : List α → List α
  | [] => []
  | a :: l => insertLe le a (sortLe le l)

/-- Lookup in the version index: `self._versions.get(node_type_id) or []`
(a missing id and an empty list both yield `[]`). -/
def versionsOf (s : RegistryState) (node_type_id : String) : List String :=
  match s.versions.find? (fun e => e.1 = node_type_id) with
  | some e => e.2
  | none => []

/-- Lookup in the store: `self._store.get(key)`. -/
def storeFind (s : RegistryState) (key : String × String) : Option NodeType :=
  (s.store.find? (fun e => e.1 = key)).map (fun e => e.2)

/-- Membership test `key in self._store`. -/
def storeHasKey (s : RegistryState) (key : String × String) : Bool :=
  (s.store.find? (fun e => e.1 = key)).isSome

/-- `self._versions[node_type_id].append(version)` on the `defaultdict`:
extend the existing entry, or create one holding `[version]`. -/
def appendVersion : List (String × List String) → String → String → List (String × List String)
  | [], node_type_id, version => [(node_type_id, [version])]
  | e :: rest, node_type_id, version =>
    if e.1 = node_type_id then (e.1, e.2 ++ [version]) :: rest
    else e :: appendVersion rest node_type_id version

/-- `health`: a fixed `ok` status and the current timestamp `now()`
(`utils.now` is not among the repository files; modelled from the spec:
"returns a fixed ok status plus current timestamp", so the ambient clock
value is an explicit argument). -/
def health (t : Nat) : Health :=
  { status := .ok, time := t }

/-- `version`: static service identity. -/
def versionInfo (s : RegistryState) : VersionInfo :=
  { service_name := s.service_name, service_version := s.service_version,
    supported_api_versions := ["v1"] }

/-- `publish_node_type`: reject a key already in the store with a 409
`AlreadyExists` error, otherwise insert into the store and append to the
version index, returning the payload unchanged. -/
def publish_node_type (s : RegistryState) (node_type : NodeType) :
    Except ArpServerError NodeType × RegistryState :=
  let key := (node_type.node_type_id, node_type.version)
  if storeHasKey s key then
    (.error { code := "node_type_already_exists",
              message := "NodeType '" ++ node_type.node_type_id ++ "@" ++
                node_type.version ++ "' already exists",
              status_code := 409 }, s)
  else
    (.ok node_type,
     { s with store := s.store ++ [(key, node_type)],
              versions := appendVersion s.versions node_type.node_type_id node_type.version })

/-- The successor state of a successful publish: the store insertion and
the version-index append of lines 96-97, performed together. -/
def publishedState (s : RegistryState) (nt : NodeType) : RegistryState :=
  { s with store := s.store ++ [((nt.node_type_id, nt.version), nt)],
           versions := appendVersion s.versions nt.node_type_id nt.version }

/-- The pairing and filtering of `get_node_type` lines 117-118: pair every
published version with its `_semver_key` and keep those whose key is not
`None`. -/
def semverPairs (versions : List String) : List (String × SemverKey) :=
  (versions.map (fun v => (v, semver_key v))).filterMap
    (fun p => p.2.map (fun k => (p.1, k)))

/-- One step of Python `max` with a key function: replace the current
maximum only when the candidate key is strictly greater. -/
def maxStep (cur y : String × SemverKey) : String × SemverKey :=
  if cmpKey y.2 cur.2 = .gt then y else cur

/-- Python `max(semver_versions, key=lambda item: item[1])`: scan left to
right from the first element, replacing the current maximum only on a
strictly greater key, so the first of several key-equal maxima is kept. -/
def pyMaxBy : List (String × SemverKey) → Option (String × SemverKey)
  | [] => none
  | x :: xs => some (xs.foldl maxStep x)

/-- The latest-version resolution of `get_node_type` for a nonempty
version list: the semver maximum when any version parses, otherwise
`sorted(versions)[-1]` (the default `""` is never reached on nonempty
input). -/
def resolveLatest (versions : List String) : String :=
  match pyMaxBy (semverPairs versions) with
  | some m => m.1
  | none => (sortLe strLeB versions).getLast?.getD ""

/-- The final store lookup of `get_node_type` (lines 123-127), shared by
the explicit-version and resolved-version paths. -/
def lookupFinal (s : RegistryState) (node_type_id version : String) :
    Except ArpServerError NodeType :=
  match storeFind s (node_type_id, version) with
  | some nt => .ok nt
  | none => .error { code := "node_type_not_found",
                     message := "NodeType '" ++ node_type_id ++ "@" ++ version ++
                       "' not found",
                     status_code := 404 }

/-- `get_node_type`: with an explicit version, a plain store lookup; with
the version omitted, resolve "latest" over the published versions, failing
with a 404 naming the id alone when none exist. -/
def get_node_type (s : RegistryState) (node_type_id : String) (version? : Option String) :
    Except ArpServerError NodeType :=
  match version? with
  | some v => lookupFinal s node_type_id v
  | none =>
    let versions := versionsOf s node_type_id
    if versions = [] then
      .error { code := "node_type_not_found",
               message := "NodeType '" ++ node_type_id ++ "' not found",
               status_code := 404 }
    else lookupFinal s node_type_id (resolveLatest versions)

/-- Python `needle in hay` prefix step: does `hay` start with `needle`? -/
def startsWithChars : List Char → List Char → Bool
  | _, [] => true
  | [], _ :: _ => false
  | c :: cs, d :: ds => c = d && startsWithChars cs ds

/-- Python substring test `needle in hay` on strings: some suffix of `hay`
starts with `needle` (the empty needle is contained in everything). -/
def containsChars (hay needle : List Char) : Bool :=
  startsWithChars hay needle ||
    match hay with
    | [] => false
    | _ :: rest => containsChars rest needle

/-- The whitespace set of Python `str.strip` restricted to ASCII. -/
def pySpace (c : Char) : Bool :=
  c = ' ' || c = '\t' || c = '\n' || c = '\r' || c = '\x0b' || c = '\x0c'

/-- Python `str.strip`: drop whitespace from both ends. -/
def pyStrip (cs : List Char) : List Char :=
  ((cs.dropWhile pySpace).reverse.dropWhile pySpace).reverse

/-- Python `str.lower` on the ASCII range (`Char.toLower` maps exactly
`A`-`Z`). -/
def pyLower (cs : List Char) : List Char :=
  cs.map Char.toLower

/-- The per-entry filter of `list_node_types`: keep a stored NodeType
unless a nonempty (stripped, lowered) query is not a substring of the
lowered id, or an explicit kind filter differs from its kind. -/
def keepEntry (q : List Char) (kind? : Option NodeKind) (nt : NodeType) : Bool :=
  !(q ≠ [] && !containsChars (pyLower nt.node_type_id.data) q) &&
    !(kind?.elim false (fun kind => nt.kind ≠ kind))

/-- `list_node_types`: normalize the query with
`(request.params.q or "").strip().lower()`, filter the store values in
insertion order, and sort ascending by the string pair
`(node_type_id, version)`. -/
def list_node_types (s : RegistryState) (q? : Option String) (kind? : Option NodeKind) :
    List NodeType :=
  let q := pyLower (pyStrip (q?.getD "").data)
  sortLe ntLeB ((s.store.map (fun e => e.2)).filter (keepEntry q kind?))

/-- One inbound request: the five operations of the registry API. -/
inductive Op where
  | health
  | versionInfo
  | publish (nt : NodeType)
  | get (node_type_id : String) (version? : Option String)
  | list (q? : Option String) (kind? : Option NodeKind)
deriving DecidableEq

deriving instance DecidableEq for Except

/-- A response from any of the five operations. -/
inductive OpResult where
  | health (h : Health)
  | info (v : VersionInfo)
  | node (r : Except ArpServerError NodeType)
  | listing (r : List NodeType)
deriving DecidableEq

/-- Dispatch one request at clock value `t`, producing the response and
the successor state. Only `publish_node_type` writes to `self._store` /
`self._versions` in the source; the four read operations leave the state
as it was. -/
def runOp (s : RegistryState) (t : Nat) : Op → OpResult × RegistryState
  | .health => (.health (health t), s)
  | .versionInfo => (.info (versionInfo s), s)
  | .publish nt =>
    let r := publish_node_type s nt
    (.node r.1, r.2)
  | .get id v? => (.node (get_node_type s id v?), s)
  | .list q? kind? => (.listing (list_node_types s q? kind?), s)

/-- Whether an operation is one of the four reads. -/
def Op.isRead : Op → Bool
  | .publish _ => false
  | _ => true

/-- The store/version-index correspondence invariant of spec section 3:
every version recorded under an id in the version index has a store entry
keyed by that id and version. -/
def InvariantB (s : RegistryState) : Bool :=
  s.versions.all (fun e => e.2.all (fun v => storeHasKey s (e.1, v)))

/-- A concrete record for the witness instances below. -/
def sampleNT (i v : String) (k : NodeKind) (p : String) : NodeType :=
  { node_type_id := i, version := v, kind := k, payload := p }

/-- A freshly constructed registry, as the witness starting point. -/
def state0 : RegistryState :=
  initState "arp-template-node-registry" "0.1.0"

/-- `0.2.0` then `0.10.0` published for one id (the scenario of the
repository's own test). -/
def stateSemver : RegistryState :=
  (publish_node_type (publish_node_type state0 (sampleNT "atomic.echo" "0.2.0" .atomic "a")).2
    (sampleNT "atomic.echo" "0.10.0" .atomic "b")).2

/-- `release-a` then `release-b` published for one id: no version parses
as a semantic version. -/
def stateNonSemver : RegistryState :=
  (publish_node_type (publish_node_type state0 (sampleNT "tool.x" "release-a" .atomic "a")).2
    (sampleNT "tool.x" "release-b" .atomic "b")).2

/-- `1.0.0` then `v1.0.0` published for one id: two distinct version
strings with equal semver sort keys. -/
def stateTie : RegistryState :=
  (publish_node_type (publish_node_type state0 (sampleNT "tool.y" "1.0.0" .atomic "first")).2
    (sampleNT "tool.y" "v1.0.0" .atomic "second")).2

/-- The laws a three-way comparison needs for the maximum arguments below:
`eq` characterizes equality, `swap` exchanges the operands, and `lt` is
transitive. -/
structure LawfulCmp (cmp : α → α → Ordering) : Prop where
  eq_iff : ∀ a b, cmp a b = .eq ↔ a = b
  swap_eq : ∀ a b, (cmp a b).swap = cmp b a
  lt_trans : ∀ {a b c}, cmp a b = .lt → cmp b c = .lt → cmp a c = .lt

theorem then_eq_eq {o p : Ordering} : o.then p = .eq ↔ o = .eq ∧ p = .eq := by
  cases o <;> simp [Ordering.then]

theorem then_eq_lt {o p : Ordering} : o.then p = .lt ↔ o = .lt ∨ (o = .eq ∧ p = .lt) := by
  cases o <;> simp [Ordering.then]

theorem then_eq_gt {o p : Ordering} : o.then p = .gt ↔ o = .gt ∨ (o = .eq ∧ p = .gt) := by
  cases o <;> simp [Ordering.then]

theorem swap_then (o p : Ordering) : (o.then p).swap = o.swap.then p.swap := by
  cases o <;> rfl

theorem LawfulCmp.refl {cmp : α → α → Ordering} (h : LawfulCmp cmp) (a : α) :
    cmp a a = .eq :=
  (h.eq_iff a a).mpr rfl

theorem LawfulCmp.gt_iff_lt {cmp : α → α → Ordering} (h : LawfulCmp cmp) {a b : α} :
    cmp a b = .gt ↔ cmp b a = .lt := by
  rw [← h.swap_eq a b]
  cases cmp a b <;> simp [Ordering.swap]

theorem LawfulCmp.lt_of_ne_gt_of_gt {cmp : α → α → Ordering} (h : LawfulCmp cmp)
    {z c y : α} (hzc : cmp z c ≠ .gt) (hyc : cmp y c = .gt) : cmp z y = .lt := by
  rcases ho : cmp z c with _ | _ | _
  · exact h.lt_trans ho (h.gt_iff_lt.mp hyc)
  · rw [(h.eq_iff z c).mp ho]
    exact h.gt_iff_lt.mp hyc
  · exact absurd ho hzc

theorem LawfulCmp.le_total {cmp : α → α → Ordering} (h : LawfulCmp cmp) (a b : α) :
    cmp a b ≠ .gt ∨ cmp b a ≠ .gt := by
  rcases ho : cmp a b with _ | _ | _
  · exact Or.inl (by simp)
  · exact Or.inl (by simp)
  · refine Or.inr ?_
    rw [h.gt_iff_lt.mp ho]
    simp

theorem LawfulCmp.le_trans {cmp : α → α → Ordering} (h : LawfulCmp cmp) {a b c : α}
    (hab : cmp a b ≠ .gt) (hbc : cmp b c ≠ .gt) : cmp a c ≠ .gt := by
  intro hac
  have hca : cmp c a = .lt := h.gt_iff_lt.mp hac
  rcases ho : cmp a b with _ | _ | _
  · exact hbc (h.gt_iff_lt.mpr (h.lt_trans hca ho))
  · rw [(h.eq_iff a b).mp ho] at hca
    exact hbc (h.gt_iff_lt.mpr hca)
  · exact hab ho

theorem cmpNat_lt_iff {a b : Nat} : cmpNat a b = .lt ↔ a < b := by
  unfold cmpNat
  split
  · simp; omega
  · split <;> simp <;> omega

theorem cmpNat_eq_iff {a b : Nat} : cmpNat a b = .eq ↔ a = b := by
  unfold cmpNat
  split
  · simp; omega
  · split <;> simp_all

theorem cmpNat_gt_iff {a b : Nat} : cmpNat a b = .gt ↔ b < a := by
  unfold cmpNat
  split
  · simp; omega
  · split <;> simp <;> omega

theorem lawful_cmpNat : LawfulCmp cmpNat := by
  refine ⟨fun a b => cmpNat_eq_iff, fun a b => ?_, fun {a b c} h1 h2 => ?_⟩
  · rcases ho : cmpNat a b with _ | _ | _
    · rw [cmpNat_lt_iff] at ho
      simp [Ordering.swap, (cmpNat_gt_iff).mpr ho]
    · rw [cmpNat_eq_iff] at ho
      simp [Ordering.swap, cmpNat_eq_iff.mpr ho.symm]
    · rw [cmpNat_gt_iff] at ho
      simp [Ordering.swap, (cmpNat_lt_iff).mpr ho]
  · rw [cmpNat_lt_iff] at *
    omega

theorem cmpChar_eq_iff {a b : Char} : cmpChar a b = .eq ↔ a = b := by
  unfold cmpChar
  rw [cmpNat_eq_iff]
  constructor
  · intro h
    exact Char.eq_of_val_eq (UInt32.ext h)
  · intro h
    rw [h]

theorem lawful_cmpChar : LawfulCmp cmpChar := by
  refine ⟨fun a b => cmpChar_eq_iff, fun a b => lawful_cmpNat.swap_eq _ _,
    fun {a b c} h1 h2 => lawful_cmpNat.lt_trans h1 h2⟩

theorem cmpLexList_eq_iff {cmp : α → α → Ordering} (h : LawfulCmp cmp) :
    ∀ a b : List α, cmpLexList cmp a b = .eq ↔ a = b := by
  intro a
  induction a with
  | nil => intro b; cases b <;> simp [cmpLexList]
  | cons x xs ih =>
    intro b
    cases b with
    | nil => simp [cmpLexList]
    | cons y ys =>
      simp only [cmpLexList, then_eq_eq, ih ys, h.eq_iff, List.cons.injEq]

theorem cmpLexList_swap {cmp : α → α → Ordering} (h : LawfulCmp cmp) :
    ∀ a b : List α, (cmpLexList cmp a b).swap = cmpLexList cmp b a := by
  intro a
  induction a with
  | nil => intro b; cases b <;> simp [cmpLexList, Ordering.swap]
  | cons x xs ih =>
    intro b
    cases b with
    | nil => simp [cmpLexList, Ordering.swap]
    | cons y ys => simp only [cmpLexList, swap_then, h.swap_eq, ih ys]

theorem cmpLexList_lt_trans {cmp : α → α → Ordering} (h : LawfulCmp cmp) :
    ∀ a b c : List α, cmpLexList cmp a b = .lt → cmpLexList cmp b c = .lt →
      cmpLexList cmp a c = .lt := by
  intro a
  induction a with
  | nil =>
    intro b c h1 h2
    cases b with
    | nil => exact absurd h1 (by simp [cmpLexList])
    | cons y ys =>
      cases c with
      | nil => exact absurd h2 (by simp [cmpLexList])
      | cons z zs => simp [cmpLexList]
  | cons x xs ih =>
    intro b c h1 h2
    cases b with
    | nil => exact absurd h1 (by simp [cmpLexList])
    | cons y ys =>
      cases c with
      | nil => exact absurd h2 (by simp [cmpLexList])
      | cons z zs =>
        rw [cmpLexList, then_eq_lt] at h1 h2 ⊢
        rcases h1 with h1 | ⟨h1e, h1t⟩
        · rcases h2 with h2 | ⟨h2e, h2t⟩
          · exact Or.inl (h.lt_trans h1 h2)
          · rw [(h.eq_iff y z).mp h2e] at h1
            exact Or.inl h1
        · rcases h2 with h2 | ⟨h2e, h2t⟩
          · rw [(h.eq_iff x y).mp h1e]
            exact Or.inl h2
          · refine Or.inr ⟨?_, ih ys zs h1t h2t⟩
            rw [h.eq_iff] at h1e h2e ⊢
            rw [h1e, h2e]

theorem lawful_cmpLexList {cmp : α → α → Ordering} (h : LawfulCmp cmp) :
    LawfulCmp (cmpLexList cmp) :=
  ⟨cmpLexList_eq_iff h, cmpLexList_swap h,
    fun {a b c} h1 h2 => cmpLexList_lt_trans h a b c h1 h2⟩

theorem lawful_cmpPreId : LawfulCmp cmpPreId := by
  constructor
  · intro a b
    cases a <;> cases b <;>
      simp [cmpPreId, cmpNat_eq_iff, (lawful_cmpLexList lawful_cmpChar).eq_iff]
  · intro a b
    cases a with
    | num m =>
      cases b with
      | num n => exact lawful_cmpNat.swap_eq m n
      | str t => rfl
    | str s =>
      cases b with
      | num n => rfl
      | str t => exact cmpLexList_swap lawful_cmpChar s t
  · intro a b c h1 h2
    cases a with
    | num m =>
      cases b with
      | num n =>
        cases c with
        | num p => exact lawful_cmpNat.lt_trans h1 h2
        | str t => rfl
      | str t =>
        cases c with
        | num p => exact absurd h2 (by simp [cmpPreId])
        | str u => rfl
    | str s =>
      cases b with
      | num n => exact absurd h1 (by simp [cmpPreId])
      | str t =>
        cases c with
        | num p => exact absurd h2 (by simp [cmpPreId])
        | str u => exact cmpLexList_lt_trans lawful_cmpChar s t u h1 h2

theorem keyList_inj {x y : SemverKey} (h : keyList x = keyList y) : x = y := by
  cases x
  cases y
  simp only [keyList, List.cons.injEq, PreId.num.injEq] at h
  simp only [SemverKey.mk.injEq]
  exact ⟨h.1, h.2.1, h.2.2.1, h.2.2.2.1, h.2.2.2.2⟩

theorem lawful_cmpKey : LawfulCmp cmpKey := by
  constructor
  · intro a b
    constructor
    · intro h
      exact keyList_inj (((lawful_cmpLexList lawful_cmpPreId).eq_iff _ _).mp h)
    · intro h
      rw [h]
      exact (lawful_cmpLexList lawful_cmpPreId).refl _
  · intro a b
    exact (lawful_cmpLexList lawful_cmpPreId).swap_eq _ _
  · intro a b c h1 h2
    exact (lawful_cmpLexList lawful_cmpPreId).lt_trans h1 h2

theorem cmpStr_eq_iff {a b : String} : cmpStr a b = .eq ↔ a = b := by
  unfold cmpStr
  rw [(lawful_cmpLexList lawful_cmpChar).eq_iff]
  constructor
  · intro h
    cases a
    cases b
    exact congrArg String.mk h
  · intro h
    rw [h]

theorem lawful_cmpStr : LawfulCmp cmpStr := by
  refine ⟨fun a b => cmpStr_eq_iff, fun a b => (lawful_cmpLexList lawful_cmpChar).swap_eq _ _,
    fun {a b c} h1 h2 => (lawful_cmpLexList lawful_cmpChar).lt_trans h1 h2⟩

theorem foldl_maxStep_spec :
    ∀ (xs : List (String × SemverKey)) (cur : String × SemverKey)
      (P : List (String × SemverKey)),
    (∃ pre post, P = pre ++ cur :: post ∧ ∀ z ∈ pre, cmpKey z.2 cur.2 = .lt) →
    (∀ z ∈ P, cmpKey z.2 cur.2 ≠ .gt) →
    ∃ pre post, P ++ xs = pre ++ (xs.foldl maxStep cur) :: post ∧
      (∀ z ∈ pre, cmpKey z.2 (xs.foldl maxStep cur).2 = .lt) ∧
      (∀ z ∈ P ++ xs, cmpKey z.2 (xs.foldl maxStep cur).2 ≠ .gt) := by
  intro xs
  induction xs with
  | nil =>
    intro cur P h1 h2
    obtain ⟨pre, post, hP, hpre⟩ := h1
    exact ⟨pre, post, by simpa using hP, by simpa using hpre, by simpa using h2⟩
  | cons y ys ih =>
    intro cur P h1 h2
    have hstep : (y :: ys).foldl maxStep cur = ys.foldl maxStep (maxStep cur y) := rfl
    rw [hstep]
    by_cases hy : cmpKey y.2 cur.2 = .gt
    · have hms : maxStep cur y = y := by simp [maxStep, hy]
      rw [hms]
      have h1' : ∃ pre post, P ++ [y] = pre ++ y :: post ∧
          ∀ z ∈ pre, cmpKey z.2 y.2 = .lt :=
        ⟨P, [], rfl, fun z hz => lawful_cmpKey.lt_of_ne_gt_of_gt (h2 z hz) hy⟩
      have h2' : ∀ z ∈ P ++ [y], cmpKey z.2 y.2 ≠ .gt := by
        intro z hz
        rcases List.mem_append.mp hz with hz | hz
        · rw [lawful_cmpKey.lt_of_ne_gt_of_gt (h2 z hz) hy]
          simp
        · rw [List.mem_singleton.mp hz, lawful_cmpKey.refl]
          simp
      obtain ⟨pre, post, hPP, hpreP, hmaxP⟩ := ih y (P ++ [y]) h1' h2'
      refine ⟨pre, post, ?_, hpreP, ?_⟩
      · rw [← hPP]
        simp
      · intro z hz
        apply hmaxP
        rcases List.mem_append.mp hz with hz | hz
        · exact List.mem_append.mpr (Or.inl (List.mem_append.mpr (Or.inl hz)))
        · rcases List.mem_cons.mp hz with hz | hz
          · exact List.mem_append.mpr (Or.inl (List.mem_append.mpr (Or.inr (by simp [hz]))))
          · exact List.mem_append.mpr (Or.inr hz)
    · have hms : maxStep cur y = cur := by simp [maxStep, hy]
      rw [hms]
      obtain ⟨pre, post, hP, hpre⟩ := h1
      have h1' : ∃ pre post, P ++ [y] = pre ++ cur :: post ∧
          ∀ z ∈ pre, cmpKey z.2 cur.2 = .lt :=
        ⟨pre, post ++ [y], by rw [hP]; simp, hpre⟩
      have h2' : ∀ z ∈ P ++ [y], cmpKey z.2 cur.2 ≠ .gt := by
        intro z hz
        rcases List.mem_append.mp hz with hz | hz
        · exact h2 z hz
        · rw [List.mem_singleton.mp hz]
          exact hy
      obtain ⟨pre', post', hPP, hpreP, hmaxP⟩ := ih cur (P ++ [y]) h1' h2'
      refine ⟨pre', post', ?_, hpreP, ?_⟩
      · rw [← hPP]
        simp
      · intro z hz
        apply hmaxP
        rcases List.mem_append.mp hz with hz | hz
        · exact List.mem_append.mpr (Or.inl (List.mem_append.mpr (Or.inl hz)))
        · rcases List.mem_cons.mp hz with hz | hz
          · exact List.mem_append.mpr (Or.inl (List.mem_append.mpr (Or.inr (by simp [hz]))))
          · exact List.mem_append.mpr (Or.inr hz)

/-- The result of Python `max` over a nonempty list: it is an element of
the list, every element's key is less than or equal to its key, and every
element strictly before it in the list has a strictly smaller key (the
first of several key-equal maxima wins). -/
theorem pyMaxBy_spec (l : List (String × SemverKey)) (h : l ≠ []) :
    ∃ pre post m, pyMaxBy l = some m ∧ l = pre ++ m :: post ∧
      (∀ z ∈ pre, cmpKey z.2 m.2 = .lt) ∧ (∀ z ∈ l, cmpKey z.2 m.2 ≠ .gt) := by
  cases l with
  | nil => exact absurd rfl h
  | cons x xs =>
    have h1 : ∃ pre post, [x] = pre ++ x :: post ∧ ∀ z ∈ pre, cmpKey z.2 x.2 = .lt :=
      ⟨[], [], rfl, by simp⟩
    have h2 : ∀ z ∈ [x], cmpKey z.2 x.2 ≠ .gt := by
      intro z hz
      rw [List.mem_singleton.mp hz, lawful_cmpKey.refl]
      simp
    obtain ⟨pre, post, hPP, hpre, hmax⟩ := foldl_maxStep_spec xs x [x] h1 h2
    exact ⟨pre, post, xs.foldl maxStep x, rfl, by simpa using hPP, hpre,
      fun z hz => hmax z (by simpa using hz)⟩

theorem pyMaxBy_eq_some_mem {l : List (String × SemverKey)} {m : String × SemverKey}
    (h : pyMaxBy l = some m) : m ∈ l := by
  cases l with
  | nil => simp [pyMaxBy] at h
  | cons x xs =>
    obtain ⟨pre, post, m', hsome, heq, _, _⟩ := pyMaxBy_spec (x :: xs) (by simp)
    rw [hsome] at h
    have hm : m' = m := Option.some_inj.mp h
    subst hm
    rw [heq]
    simp

theorem mem_semverPairs {versions : List String} {v : String} {k : SemverKey} :
    (v, k) ∈ semverPairs versions ↔ v ∈ versions ∧ semver_key v = some k := by
  unfold semverPairs
  rw [List.mem_filterMap]
  constructor
  · rintro ⟨p, hp, hpk⟩
    obtain ⟨w, hw, rfl⟩ := List.mem_map.mp hp
    obtain ⟨k', hk', heq⟩ := Option.map_eq_some'.mp hpk
    cases heq
    exact ⟨hw, hk'⟩
  · rintro ⟨hv, hk⟩
    exact ⟨(v, semver_key v), List.mem_map.mpr ⟨v, hv, rfl⟩, by rw [hk]; rfl⟩

theorem semverPairs_eq_nil {versions : List String}
    (h : ∀ v ∈ versions, semver_key v = none) : semverPairs versions = [] := by
  unfold semverPairs
  rw [List.filterMap_eq_nil_iff]
  intro p hp
  obtain ⟨w, hw, rfl⟩ := List.mem_map.mp hp
  rw [h w hw]
  rfl

theorem insertLe_perm (le : α → α → Bool) (a : α) (l : List α) :
    List.Perm (insertLe le a l) (a :: l) := by
  induction l with
  | nil => exact List.Perm.refl _
  | cons b t ih =>
    by_cases h : le a b = true
    · rw [insertLe, if_pos h]
    · rw [insertLe, if_neg h]
      exact (ih.cons b).trans (List.Perm.swap a b t)

theorem sortLe_perm (le : α → α → Bool) (l : List α) : List.Perm (sortLe le l) l := by
  induction l with
  | nil => exact List.Perm.refl _
  | cons a t ih => exact (insertLe_perm le a (sortLe le t)).trans (ih.cons a)

theorem insertLe_pairwise (le : α → α → Bool)
    (total : ∀ a b, le a b = true ∨ le b a = true)
    (htrans : ∀ a b c, le a b = true → le b c = true → le a c = true)
    (a : α) (l : List α) (h : List.Pairwise (fun x y => le x y = true) l) :
    List.Pairwise (fun x y => le x y = true) (insertLe le a l) := by
  induction l with
  | nil => simp [insertLe]
  | cons b t ih =>
    rcases List.pairwise_cons.mp h with ⟨hb, ht⟩
    by_cases hab : le a b = true
    · rw [insertLe, if_pos hab]
      refine List.pairwise_cons.mpr ⟨?_, h⟩
      intro x hx
      rcases List.mem_cons.mp hx with hx | hx
      · rw [hx]; exact hab
      · exact htrans a b x hab (hb x hx)
    · rw [insertLe, if_neg hab]
      refine List.pairwise_cons.mpr ⟨?_, ih ht⟩
      intro x hx
      have hx' := (insertLe_perm le a t).mem_iff.mp hx
      rcases List.mem_cons.mp hx' with hx' | hx'
      · rw [hx']
        rcases total a b with h' | h'
        · exact absurd h' hab
        · exact h'
      · exact hb x hx'

theorem sortLe_pairwise (le : α → α → Bool)
    (total : ∀ a b, le a b = true ∨ le b a = true)
    (htrans : ∀ a b c, le a b = true → le b c = true → le a c = true)
    (l : List α) : List.Pairwise (fun x y => le x y = true) (sortLe le l) := by
  induction l with
  | nil => simp [sortLe]
  | cons a t ih => exact insertLe_pairwise le total htrans a (sortLe le t) ih

theorem pairwise_getLast_max (le : α → α → Bool) (lerefl : ∀ a, le a a = true) :
    ∀ (l : List α), l ≠ [] → List.Pairwise (fun x y => le x y = true) l →
      ∃ m, l.getLast? = some m ∧ m ∈ l ∧ ∀ a ∈ l, le a m = true := by
  intro l
  induction l with
  | nil => intro h; exact absurd rfl h
  | cons x t ih =>
    intro _ hp
    rcases List.pairwise_cons.mp hp with ⟨hx, ht⟩
    cases t with
    | nil => exact ⟨x, rfl, by simp, by simp [lerefl]⟩
    | cons y u =>
      obtain ⟨m, hm, hmem, hall⟩ := ih (by simp) ht
      refine ⟨m, ?_, List.mem_cons_of_mem x hmem, ?_⟩
      · rw [List.getLast?_cons_cons]
        exact hm
      · intro a ha
        rcases List.mem_cons.mp ha with ha | ha
        · rw [ha]
          exact hx m hmem
        · exact hall a ha

theorem find?_append_left {p : α → Bool} {l₁ : List α} (l₂ : List α) {a : α}
    (h : l₁.find? p = some a) : (l₁ ++ l₂).find? p = some a := by
  induction l₁ with
  | nil => simp [List.find?] at h
  | cons x t ih =>
    rcases hx : p x with _ | _
    · rw [List.find?_cons_of_neg _ (by simp [hx])] at h
      rw [List.cons_append, List.find?_cons_of_neg _ (by simp [hx])]
      exact ih h
    · rw [List.find?_cons_of_pos _ hx] at h
      rw [List.cons_append, List.find?_cons_of_pos _ hx]
      exact h

theorem find?_append_none {p : α → Bool} {l₁ : List α} (l₂ : List α)
    (h : l₁.find? p = none) : (l₁ ++ l₂).find? p = l₂.find? p := by
  induction l₁ with
  | nil => rfl
  | cons x t ih =>
    rcases hx : p x with _ | _
    · rw [List.find?_cons_of_neg _ (by simp [hx])] at h
      rw [List.cons_append, List.find?_cons_of_neg _ (by simp [hx])]
      exact ih h
    · rw [List.find?_cons_of_pos _ hx] at h
      exact absurd h (by simp)

theorem storeHasKey_false_iff {s : RegistryState} {k : String × String} :
    storeHasKey s k = false ↔ s.store.find? (fun e => e.1 = k) = none := by
  unfold storeHasKey
  rw [Bool.eq_false_iff, Ne, ← Option.not_isSome_iff_eq_none]

theorem storeFind_of_hasKey {s : RegistryState} {k : String × String}
    (h : storeHasKey s k = true) : ∃ nt, storeFind s k = some nt := by
  unfold storeHasKey at h
  obtain ⟨e, he⟩ := Option.isSome_iff_exists.mp h
  exact ⟨e.2, by unfold storeFind; rw [he]; rfl⟩

theorem lookupFinal_ok {s : RegistryState} {id v : String} {nt : NodeType}
    (h : storeFind s (id, v) = some nt) : lookupFinal s id v = .ok nt := by
  unfold lookupFinal
  rw [h]

theorem invariant_store_of_mem {s : RegistryState} (h : InvariantB s = true)
    {id v : String} (hv : v ∈ versionsOf s id) : storeHasKey s (id, v) = true := by
  unfold versionsOf at hv
  rcases hf : s.versions.find? (fun e => e.1 = id) with _ | e
  · rw [hf] at hv
    simp at hv
  · rw [hf] at hv
    have hmem : e ∈ s.versions := List.mem_of_find?_eq_some hf
    have hid : e.1 = id := by
      have := List.find?_some hf
      simpa using this
    have := (List.all_eq_true.mp h) e hmem
    have := (List.all_eq_true.mp this) v hv
    rw [hid] at this
    exact this

theorem get_none_unfold {s : RegistryState} {id : String} (h : versionsOf s id ≠ []) :
    get_node_type s id none = lookupFinal s id (resolveLatest (versionsOf s id)) := by
  unfold get_node_type
  simp only [h, if_neg, reduceCtorEq]
  rfl

theorem resolveLatest_semver {versions : List String} {m : String × SemverKey}
    (h : pyMaxBy (semverPairs versions) = some m) : resolveLatest versions = m.1 := by
  unfold resolveLatest
  rw [h]

theorem strLeB_refl (a : String) : strLeB a a = true := by
  unfold strLeB
  rw [lawful_cmpStr.refl]
  simp

theorem strLeB_total (a b : String) : strLeB a b = true ∨ strLeB b a = true := by
  unfold strLeB
  rcases lawful_cmpStr.le_total a b with h' | h' <;> [left; right] <;> simpa using h'

theorem strLeB_trans (a b c : String) (h1 : strLeB a b = true) (h2 : strLeB b c = true) :
    strLeB a c = true := by
  unfold strLeB at *
  simp only [ne_eq, decide_eq_true_eq] at *
  exact lawful_cmpStr.le_trans h1 h2

/-- The maximum that `sorted(versions)[-1]` selects: the last element of
the sorted copy is a member and bounds every element from above. -/
theorem sortedLast_spec (l : List String) (h : l ≠ []) :
    ∃ m, (sortLe strLeB l).getLast? = some m ∧ m ∈ l ∧ ∀ w ∈ l, strLeB w m = true := by
  have hperm := sortLe_perm strLeB l
  have hne : sortLe strLeB l ≠ [] := by
    intro hnil
    rw [hnil] at hperm
    exact h hperm.symm.eq_nil
  obtain ⟨m, hlast, hmem, hall⟩ := pairwise_getLast_max strLeB strLeB_refl
    (sortLe strLeB l) hne (sortLe_pairwise strLeB strLeB_total strLeB_trans l)
  exact ⟨m, hlast, hperm.mem_iff.mp hmem,
    fun w hw => hall w (hperm.mem_iff.mpr hw)⟩

theorem resolveLatest_lex {versions : List String} {m : String}
    (hnone : pyMaxBy (semverPairs versions) = none)
    (hlast : (sortLe strLeB versions).getLast? = some m) :
    resolveLatest versions = m := by
  unfold resolveLatest
  rw [hnone, hlast]
  rfl

theorem resolveLatest_mem {versions : List String} (h : versions ≠ []) :
    resolveLatest versions ∈ versions := by
  rcases hm : pyMaxBy (semverPairs versions) with _ | m
  · obtain ⟨m, hlast, hmem, _⟩ := sortedLast_spec versions h
    rw [resolveLatest_lex hm hlast]
    exact hmem
  · rw [resolveLatest_semver hm]
    have := pyMaxBy_eq_some_mem hm
    rcases m with ⟨v, k⟩
    exact (mem_semverPairs.mp this).1

theorem get_none_ok {s : RegistryState} {id : String} (hInv : InvariantB s = true)
    (h : versionsOf s id ≠ []) :
    ∃ nt, get_node_type s id none = .ok nt ∧
      storeFind s (id, resolveLatest (versionsOf s id)) = some nt := by
  have hmem := resolveLatest_mem h
  have hkey := invariant_store_of_mem hInv hmem
  obtain ⟨nt, hnt⟩ := storeFind_of_hasKey hkey
  exact ⟨nt, by rw [get_none_unfold h]; exact lookupFinal_ok hnt, hnt⟩

theorem storeHasKey_store_append {s' s : RegistryState} {key : String × String}
    {nt : NodeType} (hs : s'.store = s.store ++ [(key, nt)]) (k : String × String) :
    storeHasKey s' k = (storeHasKey s k || decide (key = k)) := by
  unfold storeHasKey
  rw [hs]
  rcases hf : s.store.find? (fun e => e.1 = k) with _ | e
  · rw [find?_append_none _ hf]
    by_cases hk : key = k
    · rw [List.find?_cons_of_pos _ (by simp [hk])]
      simp [hk]
    · rw [List.find?_cons_of_neg _ (by simp [hk]), List.find?_nil, hf]
      simp only [Option.isSome_none, Bool.false_or]
      exact (decide_eq_false hk).symm
  · rw [find?_append_left _ hf, hf]
    rfl

theorem appendVersion_mem :
    ∀ (m : List (String × List String)) (id ver : String) (e' : String × List String),
    e' ∈ appendVersion m id ver → ∀ v ∈ e'.2,
      (∃ e ∈ m, e.1 = e'.1 ∧ v ∈ e.2) ∨ (e'.1 = id ∧ v = ver) := by
  intro m
  induction m with
  | nil =>
    intro id ver e' he' v hv
    rw [appendVersion, List.mem_singleton] at he'
    subst he'
    right
    exact ⟨rfl, List.mem_singleton.mp hv⟩
  | cons e rest ih =>
    intro id ver e' he' v hv
    rw [appendVersion] at he'
    by_cases h : e.1 = id
    · rw [if_pos h] at he'
      rcases List.mem_cons.mp he' with he' | he'
      · subst he'
        rcases List.mem_append.mp hv with hv | hv
        · exact Or.inl ⟨e, List.mem_cons_self e rest, rfl, hv⟩
        · exact Or.inr ⟨h, List.mem_singleton.mp hv⟩
      · exact Or.inl ⟨e', List.mem_cons_of_mem e he', rfl, hv⟩
    · rw [if_neg h] at he'
      rcases List.mem_cons.mp he' with he' | he'
      · subst he'
        exact Or.inl ⟨e', List.mem_cons_self e' rest, rfl, hv⟩
      · rcases ih id ver e' he' v hv with ⟨w, hw, h1, h2⟩ | hnew
        · exact Or.inl ⟨w, List.mem_cons_of_mem e hw, h1, h2⟩
        · exact Or.inr hnew

theorem publish_conflict_eq {s : RegistryState} {nt : NodeType}
    (h : storeHasKey s (nt.node_type_id, nt.version) = true) :
    publish_node_type s nt =
      (.error { code := "node_type_already_exists",
                message := "NodeType '" ++ nt.node_type_id ++ "@" ++ nt.version ++
                  "' already exists",
                status_code := 409 }, s) := by
  unfold publish_node_type
  simp only [h, if_true]

theorem publish_fresh_eq {s : RegistryState} {nt : NodeType}
    (h : storeHasKey s (nt.node_type_id, nt.version) = false) :
    publish_node_type s nt = (.ok nt, publishedState s nt) := by
  unfold publish_node_type publishedState
  simp only [h, Bool.false_eq_true, if_false]

theorem publish_preserves_invariant (s : RegistryState) (nt : NodeType)
    (h : InvariantB s = true) : InvariantB (publish_node_type s nt).2 = true := by
  rcases hk : storeHasKey s (nt.node_type_id, nt.version) with _ | _
  · rw [publish_fresh_eq hk]
    rw [InvariantB, List.all_eq_true]
    intro e' he'
    rw [List.all_eq_true]
    intro v hv
    have hs : (publishedState s nt).store =
        s.store ++ [((nt.node_type_id, nt.version), nt)] := rfl
    rw [storeHasKey_store_append hs]
    rcases appendVersion_mem s.versions nt.node_type_id nt.version e' he' v hv with
      ⟨e, hem, h1, h2⟩ | ⟨h1, h2⟩
    · have := (List.all_eq_true.mp h) e hem
      have := (List.all_eq_true.mp this) v h2
      rw [h1] at this
      rw [this]
      rfl
    · rw [h1, h2]
      simp
  · rw [publish_conflict_eq hk]
    exact h

theorem runOp_preserves_invariant (s : RegistryState) (t : Nat) (op : Op)
    (h : InvariantB s = true) : InvariantB ((runOp s t op).2) = true := by
  cases op with
  | publish nt => exact publish_preserves_invariant s nt h
  | health => exact h
  | versionInfo => exact h
  | get id v? => exact h
  | list q? kind? => exact h

theorem lawful_cmpPairStr : LawfulCmp cmpPairStr := by
  constructor
  · intro a b
    unfold cmpPairStr
    rw [(lawful_cmpLexList lawful_cmpStr).eq_iff]
    constructor
    · intro h
      simp only [List.cons.injEq, and_true] at h
      exact Prod.ext h.1 h.2
    · intro h
      rw [h]
  · intro a b
    exact (lawful_cmpLexList lawful_cmpStr).swap_eq _ _
  · intro a b c h1 h2
    exact (lawful_cmpLexList lawful_cmpStr).lt_trans h1 h2

theorem ntLeB_total (a b : NodeType) : ntLeB a b = true ∨ ntLeB b a = true := by
  unfold ntLeB
  rcases lawful_cmpPairStr.le_total (ntSortKey a) (ntSortKey b) with h | h
  · exact Or.inl (by simpa using h)
  · exact Or.inr (by simpa using h)

theorem ntLeB_trans (a b c : NodeType) (h1 : ntLeB a b = true) (h2 : ntLeB b c = true) :
    ntLeB a c = true := by
  unfold ntLeB at *
  simp only [ne_eq, decide_eq_true_eq] at *
  exact lawful_cmpPairStr.le_trans h1 h2

theorem get_after_publish {s : RegistryState} {nt : NodeType}
    (h : storeHasKey s (nt.node_type_id, nt.version) = false) :
    get_node_type (publishedState s nt) nt.node_type_id (some nt.version) = .ok nt := by
  show lookupFinal (publishedState s nt) nt.node_type_id nt.version = .ok nt
  apply lookupFinal_ok
  unfold storeFind
  rw [show (publishedState s nt).store =
      s.store ++ [((nt.node_type_id, nt.version), nt)] from rfl]
  rw [find?_append_none _ (storeHasKey_false_iff.mp h)]
  rw [List.find?_cons_of_pos _ (by simp)]
  rfl

theorem get_none_semver {s : RegistryState} {id : String} {m : String × SemverKey}
    (hInv : InvariantB s = true)
    (hm : pyMaxBy (semverPairs (versionsOf s id)) = some m) :
    ∃ nt, storeFind s (id, m.1) = some nt ∧ get_node_type s id none = .ok nt := by
  have hmem : m ∈ semverPairs (versionsOf s id) := pyMaxBy_eq_some_mem hm
  have hv : m.1 ∈ versionsOf s id := by
    rcases m with ⟨v, k⟩
    exact (mem_semverPairs.mp hmem).1
  have hne : versionsOf s id ≠ [] := by
    intro hnil
    rw [hnil] at hv
    exact List.not_mem_nil _ hv
  obtain ⟨nt, hnt⟩ := storeFind_of_hasKey (invariant_store_of_mem hInv hv)
  refine ⟨nt, hnt, ?_⟩
  rw [get_none_unfold hne, resolveLatest_semver hm]
  exact lookupFinal_ok hnt

/-- C1: for every node_type_id with at least one published version that
parses as a semantic version, `get_node_type` with the version omitted
succeeds and returns the stored NodeType of a version drawn from the
parsing set (`semverPairs` excludes every version whose `_semver_key` is
`none`) whose key is maximal under the semver ordering embedded in
`cmpKey`: major, minor, patch compared numerically, a prerelease strictly
below the same release, prerelease identifiers compared dot-separated left
to right with numeric identifiers compared numerically and below
non-numeric ones, and a proper prefix sorting lower. -/
theorem C1_get_latest_semver_max (s : RegistryState) (id : String)
    (hInv : InvariantB s = true)
    (hpv : semverPairs (versionsOf s id) ≠ []) :
    ∃ v k nt, (v, k) ∈ semverPairs (versionsOf s id) ∧
      (∀ w k', (w, k') ∈ semverPairs (versionsOf s id) → cmpKey k' k ≠ .gt) ∧
      storeFind s (id, v) = some nt ∧
      get_node_type s id none = .ok nt := by
  obtain ⟨pre, post, m, hm, heq, hpre, hmax⟩ := pyMaxBy_spec _ hpv
  obtain ⟨nt, hnt, hok⟩ := get_none_semver hInv hm
  exact ⟨m.1, m.2, nt, pyMaxBy_eq_some_mem hm,
    fun w k' hw => hmax (w, k') hw, hnt, hok⟩

/-- C1 witness: the repository's own test scenario, `0.2.0` then `0.10.0`
published for `atomic.echo`. -/
theorem C1_witness :
    InvariantB stateSemver = true ∧
    semverPairs (versionsOf stateSemver "atomic.echo") ≠ [] ∧
    (∃ v k nt, (v, k) ∈ semverPairs (versionsOf stateSemver "atomic.echo") ∧
      (∀ w k', (w, k') ∈ semverPairs (versionsOf stateSemver "atomic.echo") →
        cmpKey k' k ≠ .gt) ∧
      storeFind stateSemver ("atomic.echo", v) = some nt ∧
      get_node_type stateSemver "atomic.echo" none = .ok nt) :=
  ⟨by decide, by decide,
    C1_get_latest_semver_max stateSemver "atomic.echo" (by decide) (by decide)⟩

/-- C2: publishing a NodeType whose (node_type_id, version) key is already
stored fails with code `node_type_already_exists`, status 409, a message
naming the conflicting id@version, and returns the state unchanged (both
the store and the version index, since the whole `RegistryState` is
returned as it was). -/
theorem C2_publish_conflict (s : RegistryState) (nt : NodeType)
    (h : storeHasKey s (nt.node_type_id, nt.version) = true) :
    publish_node_type s nt =
      (.error { code := "node_type_already_exists",
                message := "NodeType '" ++ nt.node_type_id ++ "@" ++ nt.version ++
                  "' already exists",
                status_code := 409 }, s) :=
  publish_conflict_eq h

/-- C2 witness: republishing `atomic.echo@0.2.0` (even with a different
payload) is rejected and the state is unchanged. -/
theorem C2_witness :
    storeHasKey stateSemver ("atomic.echo", "0.2.0") = true ∧
    publish_node_type stateSemver (sampleNT "atomic.echo" "0.2.0" .composite "dup") =
      (.error { code := "node_type_already_exists",
                message := "NodeType '" ++ "atomic.echo" ++ "@" ++ "0.2.0" ++
                  "' already exists",
                status_code := 409 }, stateSemver) :=
  ⟨by decide, C2_publish_conflict stateSemver (sampleNT "atomic.echo" "0.2.0" .composite "dup")
    (by decide)⟩

/-- C3: the invariant "every version string in the version index has a
corresponding store entry" holds in the empty initial state and is
preserved by every one of the five operations; a successful publish
performs the store insertion and the version-index append together in the
one `runOp` step (the source lines 96-97 run back to back with no
intervening operation). -/
theorem C3_invariant_preserved (n v : String) :
    InvariantB (initState n v) = true ∧
    ∀ (s : RegistryState) (t : Nat) (op : Op), InvariantB s = true →
      InvariantB ((runOp s t op).2) = true :=
  ⟨rfl, runOp_preserves_invariant⟩

/-- C3 witness: a concrete publish step out of a concrete reachable state
keeps the invariant. -/
theorem C3_witness :
    InvariantB ((runOp stateSemver 0
      (Op.publish (sampleNT "tool.z" "1.2.3" .atomic "p"))).2) = true :=
  (C3_invariant_preserved "arp-template-node-registry" "0.1.0").2 stateSemver 0
    (Op.publish (sampleNT "tool.z" "1.2.3" .atomic "p")) (by decide)

/-- C4: a successful publish returns the payload unchanged, and a
subsequent get with the same explicit id and version returns a NodeType
equal to the published payload, unchanged. -/
theorem C4_roundtrip (s : RegistryState) (nt : NodeType)
    (h : storeHasKey s (nt.node_type_id, nt.version) = false) :
    publish_node_type s nt = (.ok nt, publishedState s nt) ∧
    get_node_type (publishedState s nt) nt.node_type_id (some nt.version) = .ok nt :=
  ⟨publish_fresh_eq h, get_after_publish h⟩

/-- C4 witness: publish a fresh record into a concrete state and read it
back. -/
theorem C4_witness :
    storeHasKey stateSemver ("tool.new", "1.0.0") = false ∧
    (publish_node_type stateSemver (sampleNT "tool.new" "1.0.0" .atomic "p") =
      (.ok (sampleNT "tool.new" "1.0.0" .atomic "p"),
       publishedState stateSemver (sampleNT "tool.new" "1.0.0" .atomic "p")) ∧
     get_node_type (publishedState stateSemver (sampleNT "tool.new" "1.0.0" .atomic "p"))
       "tool.new" (some "1.0.0") = .ok (sampleNT "tool.new" "1.0.0" .atomic "p")) :=
  ⟨by decide, C4_roundtrip stateSemver (sampleNT "tool.new" "1.0.0" .atomic "p") (by decide)⟩

/-- C5: under the store/version-index invariant, `get_node_type` fails
with code `node_type_not_found` and status 404 exactly when the version is
omitted and no versions exist for the id (message naming the id alone,
with no version suffix) or when an explicit (id, version) key is absent
from the store (message naming id@version); in every other case it
succeeds. -/
theorem C5_not_found_characterization (s : RegistryState)
    (hInv : InvariantB s = true) (id : String) :
    (versionsOf s id = [] →
      get_node_type s id none =
        .error { code := "node_type_not_found",
                 message := "NodeType '" ++ id ++ "' not found",
                 status_code := 404 }) ∧
    (versionsOf s id ≠ [] → ∃ nt, get_node_type s id none = .ok nt) ∧
    (∀ v, storeHasKey s (id, v) = false →
      get_node_type s id (some v) =
        .error { code := "node_type_not_found",
                 message := "NodeType '" ++ id ++ "@" ++ v ++ "' not found",
                 status_code := 404 }) ∧
    (∀ v, storeHasKey s (id, v) = true →
      ∃ nt, get_node_type s id (some v) = .ok nt) := by
  refine ⟨?_, ?_, ?_, ?_⟩
  · intro h
    unfold get_node_type
    simp [h]
  · intro h
    obtain ⟨nt, hok, _⟩ := get_none_ok hInv h
    exact ⟨nt, hok⟩
  · intro v hv
    have hfind : storeFind s (id, v) = none := by
      unfold storeFind
      rw [storeHasKey_false_iff.mp hv]
      rfl
    show lookupFinal s id v = _
    unfold lookupFinal
    rw [hfind]
  · intro v hv
    obtain ⟨nt, hnt⟩ := storeFind_of_hasKey hv
    exact ⟨nt, lookupFinal_ok hnt⟩

/-- C5 witness: in a concrete state, a never-published id gives the
id-only 404, a missing explicit version gives the id@version 404, and the
published pair succeeds. -/
theorem C5_witness :
    InvariantB stateSemver = true ∧
    ((versionsOf stateSemver "missing" = [] →
      get_node_type stateSemver "missing" none =
        .error { code := "node_type_not_found",
                 message := "NodeType '" ++ "missing" ++ "' not found",
                 status_code := 404 }) ∧
     (versionsOf stateSemver "missing" ≠ [] →
       ∃ nt, get_node_type stateSemver "missing" none = .ok nt) ∧
     (∀ v, storeHasKey stateSemver ("missing", v) = false →
       get_node_type stateSemver "missing" (some v) =
         .error { code := "node_type_not_found",
                  message := "NodeType '" ++ "missing" ++ "@" ++ v ++ "' not found",
                  status_code := 404 }) ∧
     (∀ v, storeHasKey stateSemver ("missing", v) = true →
       ∃ nt, get_node_type stateSemver "missing" (some v) = .ok nt)) :=
  ⟨by decide, C5_not_found_characterization stateSemver (by decide) "missing"⟩

/-- C6: when the published versions of an id are nonempty and none parses
as a semantic version, `get_node_type` with the version omitted returns
the stored NodeType of the maximum version string under plain code-point
lexicographic order. -/
theorem C6_lex_fallback (s : RegistryState) (id : String)
    (hInv : InvariantB s = true) (hne : versionsOf s id ≠ [])
    (hnosem : ∀ v ∈ versionsOf s id, semver_key v = none) :
    ∃ v nt, v ∈ versionsOf s id ∧ (∀ w ∈ versionsOf s id, strLeB w v = true) ∧
      storeFind s (id, v) = some nt ∧ get_node_type s id none = .ok nt := by
  have hnil : semverPairs (versionsOf s id) = [] := semverPairs_eq_nil hnosem
  have hnone : pyMaxBy (semverPairs (versionsOf s id)) = none := by
    rw [hnil]
    rfl
  obtain ⟨m, hlast, hmem, hall⟩ := sortedLast_spec (versionsOf s id) hne
  obtain ⟨nt, hnt⟩ := storeFind_of_hasKey (invariant_store_of_mem hInv hmem)
  refine ⟨m, nt, hmem, hall, hnt, ?_⟩
  rw [get_none_unfold hne, resolveLatest_lex hnone hlast]
  exact lookupFinal_ok hnt

/-- C6 witness: `release-a` and `release-b` (the spec's own example, with
neither parsing as a semantic version). -/
theorem C6_witness :
    InvariantB stateNonSemver = true ∧
    versionsOf stateNonSemver "tool.x" ≠ [] ∧
    (∀ v ∈ versionsOf stateNonSemver "tool.x", semver_key v = none) ∧
    (∃ v nt, v ∈ versionsOf stateNonSemver "tool.x" ∧
      (∀ w ∈ versionsOf stateNonSemver "tool.x", strLeB w v = true) ∧
      storeFind stateNonSemver ("tool.x", v) = some nt ∧
      get_node_type stateNonSemver "tool.x" none = .ok nt) :=
  ⟨by decide, by decide, by decide,
    C6_lex_fallback stateNonSemver "tool.x" (by decide) (by decide) (by decide)⟩

/-- C7: `list_node_types` never fails (it is a total function), and its
result is sorted ascending by the string pair (node_type_id, version) and
is exactly the stored NodeTypes passing both filters conjunctively (the
stripped, lowered query as a case-insensitive substring of the id, and the
kind as exact equality), empty when nothing matches. -/
theorem C7_list_filter_sort (s : RegistryState) (q? : Option String)
    (kind? : Option NodeKind) :
    List.Pairwise (fun a b => ntLeB a b = true) (list_node_types s q? kind?) ∧
    List.Perm (list_node_types s q? kind?)
      ((s.store.map (fun e => e.2)).filter
        (keepEntry (pyLower (pyStrip (q?.getD "").data)) kind?)) ∧
    (∀ nt, nt ∈ list_node_types s q? kind? ↔
      nt ∈ s.store.map (fun e => e.2) ∧
        keepEntry (pyLower (pyStrip (q?.getD "").data)) kind? nt = true) ∧
    ((s.store.map (fun e => e.2)).filter
        (keepEntry (pyLower (pyStrip (q?.getD "").data)) kind?) = [] →
      list_node_types s q? kind? = []) := by
  have hperm : List.Perm (list_node_types s q? kind?)
      ((s.store.map (fun e => e.2)).filter
        (keepEntry (pyLower (pyStrip (q?.getD "").data)) kind?)) :=
    sortLe_perm ntLeB _
  refine ⟨sortLe_pairwise ntLeB ntLeB_total ntLeB_trans _, hperm, ?_, ?_⟩
  · intro nt
    rw [hperm.mem_iff, List.mem_filter]
  · intro h
    rw [h] at hperm
    exact hperm.eq_nil

/-- C8 as stated is refuted by the health timestamp: two health calls with
identical arguments and no intervening publish differ once the clock has
advanced, because `health` embeds `now()` in its result. -/
theorem C8_health_counterexample :
    (runOp state0 0 Op.health).1 ≠ (runOp state0 1 Op.health).1 := by
  decide

/-- C8 amended: no read operation (health, versionInfo, get, list) changes
the registry state, and versionInfo, get and list return identical results
on repeated calls with the same arguments and no intervening publish;
health always returns status ok but carries the current timestamp, so its
results coincide only between calls at the same clock value. -/
theorem C8_reads_idempotent_amended (s : RegistryState) (t₁ t₂ : Nat) (op : Op)
    (h : op.isRead = true) :
    (runOp s t₁ op).2 = s ∧
    (op ≠ Op.health → (runOp s t₁ op).1 = (runOp s t₂ op).1) ∧
    (runOp s t₁ Op.health).1 = .health { status := Status.ok, time := t₁ } := by
  cases op with
  | health => exact ⟨rfl, fun hne => absurd rfl hne, rfl⟩
  | versionInfo => exact ⟨rfl, fun _ => rfl, rfl⟩
  | publish nt => exact absurd h (by simp [Op.isRead])
  | get id v? => exact ⟨rfl, fun _ => rfl, rfl⟩
  | list q? k? => exact ⟨rfl, fun _ => rfl, rfl⟩

/-- C8 witness: a concrete get read out of a concrete state, at two
different clock values. -/
theorem C8_witness :
    (Op.get "atomic.echo" none).isRead = true ∧
    ((runOp stateSemver 0 (Op.get "atomic.echo" none)).2 = stateSemver ∧
     (Op.get "atomic.echo" none ≠ Op.health →
       (runOp stateSemver 0 (Op.get "atomic.echo" none)).1 =
         (runOp stateSemver 1 (Op.get "atomic.echo" none)).1) ∧
     (runOp stateSemver 0 Op.health).1 = .health { status := Status.ok, time := 0 }) :=
  ⟨rfl, C8_reads_idempotent_amended stateSemver 0 1 (Op.get "atomic.echo" none) rfl⟩

/-- C9: under the store/version-index invariant, `get_node_type` with the
version omitted never fails for an id with at least one published version:
the resolved latest version is always a key present in the store, so the
final lookup's not-found branch is unreachable. -/
theorem C9_get_latest_total (s : RegistryState) (id : String)
    (hInv : InvariantB s = true) (hne : versionsOf s id ≠ []) :
    ∃ nt, get_node_type s id none = .ok nt := by
  obtain ⟨nt, hok, _⟩ := get_none_ok hInv hne
  exact ⟨nt, hok⟩

/-- C9 witness. -/
theorem C9_witness :
    InvariantB stateSemver = true ∧
    versionsOf stateSemver "atomic.echo" ≠ [] ∧
    (∃ nt, get_node_type stateSemver "atomic.echo" none = .ok nt) :=
  ⟨by decide, by decide, C9_get_latest_total stateSemver "atomic.echo" (by decide) (by decide)⟩

/-- C10: when distinct published version strings produce equal semver sort
keys, `get_node_type` with the version omitted deterministically returns
the earliest-published maximal one: the parseable versions decompose (in
versionIndex insertion order, which `semverPairs` preserves) as
pre ++ chosen :: post where every earlier parseable version has a strictly
smaller key — so any version tied with the chosen key can only come later
— and every parseable version's key is at most the chosen key. -/
theorem C10_first_of_equal_keys (s : RegistryState) (id : String)
    (hInv : InvariantB s = true)
    (hpv : semverPairs (versionsOf s id) ≠ []) :
    ∃ pre post v k nt,
      semverPairs (versionsOf s id) = pre ++ (v, k) :: post ∧
      (∀ z ∈ pre, cmpKey z.2 k = .lt) ∧
      (∀ z ∈ semverPairs (versionsOf s id), cmpKey z.2 k ≠ .gt) ∧
      storeFind s (id, v) = some nt ∧
      get_node_type s id none = .ok nt := by
  obtain ⟨pre, post, m, hm, heq, hpre, hmax⟩ := pyMaxBy_spec _ hpv
  obtain ⟨nt, hnt, hok⟩ := get_none_semver hInv hm
  exact ⟨pre, post, m.1, m.2, nt, by rw [heq], hpre, hmax, hnt, hok⟩

/-- C10 witness: `1.0.0` published before `v1.0.0` (equal keys); the
returned NodeType is the one stored for `1.0.0`, the first published. -/
theorem C10_witness :
    InvariantB stateTie = true ∧
    semverPairs (versionsOf stateTie "tool.y") ≠ [] ∧
    (∃ pre post v k nt,
      semverPairs (versionsOf stateTie "tool.y") = pre ++ (v, k) :: post ∧
      (∀ z ∈ pre, cmpKey z.2 k = .lt) ∧
      (∀ z ∈ semverPairs (versionsOf stateTie "tool.y"), cmpKey z.2 k ≠ .gt) ∧
      storeFind stateTie ("tool.y", v) = some nt ∧
      get_node_type stateTie "tool.y" none = .ok nt) :=
  ⟨by decide, by decide,
    C10_first_of_equal_keys stateTie "tool.y" (by decide) (by decide)⟩

end ARPNodeRegistry
